import Mathlib

/-!
Verification of the semantic indexing and retrieval pipeline of
`codebase-rag-chat` against its specification.

The development shallowly embeds the program's core functions:

* `SemanticAnalyzer._chunk_python` / `_chunk_react_components` / `_chunk_code`
  (semantic_analyzer.py) — the chunkers;
* `SemanticAnalyzer._generate_embeddings` — the per-chunk embedder with
  failure isolation, the external HTTP call abstracted as an oracle
  `svc : String → Except String Vec`;
* `CodebaseRAGAssistant.setup_knowledge_base` (main.py) — filtering of
  empty vectors, identifier construction and batched flushing;
* `CodebaseRAGAssistant.query_interface` (main.py) — one iteration of the
  interactive loop, with its file-frequency ranking.

Python string primitives (`split`, `join`, `strip`, `lower`, `startswith`,
f-string int formatting) are implemented structurally over `List Char`, so
every definition evaluates inside the kernel. Python floats are never
computed with (vectors are opaque payloads moving from the embedding
response to the store), so vector entries are modelled as rationals.
Python `dict`s preserve insertion order; they are modelled as association
lists where updating an existing key keeps its position (`pyDictSet`).
Python's `sorted` is a stable sort; it is modelled by `List.insertionSort`,
which is stable for the same tie convention (an earlier element is placed
before a later element it ties with).
-/

/-- Configured chunk size: `DEFAULT_CONFIG['rag']['knowledge_base']['indexing_strategy']['chunk_size']` (config.py). -/
def config_chunk_size : Nat := 1024

/-- Configured overlap: `DEFAULT_CONFIG['rag']['knowledge_base']['indexing_strategy']['overlap']` (config.py). -/
def config_overlap : Nat := 128

/-- Vector payload. The program only moves vectors around and tests emptiness;
it performs no floating-point arithmetic on them, so entries are rationals. -/
abbrev Vec := List ℚ

/-- Split a character list at `'\n'`, Python `s.split('\n')` semantics:
the empty text gives one empty piece, a trailing newline gives a trailing
empty piece. Tail-recursive over the current piece and the finished
pieces, both accumulated in reverse. -/
def splitLinesAux : List Char → List Char → List (List Char) → List (List Char)
  | [], cur, acc => (cur.reverse :: acc).reverse
  | c :: rest, cur, acc =>
    if c = '\n' then splitLinesAux rest [] (cur.reverse :: acc)
    else splitLinesAux rest (c :: cur) acc

/-- Python `code.split('\n')`. -/
def pySplitNewline (s : String) : List String :=
  (splitLinesAux s.data [] []).map String.mk

/-- Count maximal runs of non-whitespace characters, tail-recursively; the
flag says whether we are currently inside such a run. -/
def countTokensAux : Nat → Bool → List Char → Nat
  | acc, _, [] => acc
  | acc, inTok, c :: rest =>
    if c.isWhitespace then countTokensAux acc false rest
    else countTokensAux (if inTok then acc else acc + 1) true rest

/-- Python `len(line.split())`: the whitespace-token count of one line. -/
def lineTokens (line : String) : Nat :=
  countTokensAux 0 false line.data

/-- Token count of a chunk given as its list of lines. Since `'\n'` is
whitespace, this equals `len(chunk_text.split())` for the joined chunk. -/
def chunkTokens (c : List String) : Nat :=
  (c.map lineTokens).sum

/-- Python `'\n'.join(lines)`. -/
def joinNewline (ls : List String) : String :=
  ⟨List.intercalate ['\n'] (ls.map String.data)⟩

/-- Python `s.startswith(p)`, over character lists. -/
def startsWithChars : List Char → List Char → Bool
  | _, [] => true
  | [], _ :: _ => false
  | c :: cs, p :: ps => c = p && startsWithChars cs ps

/-- Python `s.startswith(p)`. -/
def pyStartsWith (s p : String) : Bool :=
  startsWithChars s.data p.data

/-- Python `s.strip()`: drop whitespace from both ends. -/
def pyStrip (s : String) : String :=
  ⟨((s.data.dropWhile Char.isWhitespace).reverse.dropWhile Char.isWhitespace).reverse⟩

/-- Python `s.lower()` (ASCII case folding suffices for the sentinel test). -/
def pyLower (s : String) : String :=
  ⟨s.data.map Char.toLower⟩

/-- Decimal digits of a positive number, fuel-based so it evaluates in the
kernel. -/
def natToCharsAux : Nat → Nat → List Char
  | 0, _ => []
  | _ + 1, 0 => []
  | fuel + 1, n + 1 =>
    natToCharsAux fuel ((n + 1) / 10) ++ [Char.ofNat (48 + (n + 1) % 10)]

/-- Python `str(i)` for an integer, as interpolated by an f-string. -/
def intToString (i : Int) : String :=
  match i with
  | .ofNat 0 => "0"
  | .ofNat (n + 1) => ⟨natToCharsAux (n + 1) (n + 1)⟩
  | .negSucc m => ⟨'-' :: natToCharsAux (m + 1) (m + 1)⟩

/-- Python dict assignment `d[k] = v` on an insertion-ordered association
list: an existing key keeps its position, a new key is appended. -/
def pyDictSet {β : Type} : List (String × β) → String → β → List (String × β)
  | [], k, v => [(k, v)]
  | (k0, v0) :: rest, k, v =>
    if k0 = k then (k, v) :: rest else (k0, v0) :: pyDictSet rest k v

/-- Python `d.get(k, dflt)` on the same representation. -/
def pyDictGetD {β : Type} : List (String × β) → String → β → β
  | [], _, dflt => dflt
  | (k0, v0) :: rest, k, dflt =>
    if k0 = k then v0 else pyDictGetD rest k dflt

/-- The keys of a Python dict, in insertion order. -/
def pyDictKeys {β : Type} (d : List (String × β)) : List String :=
  d.map Prod.fst

/-! ## Chunker (`SemanticAnalyzer`, semantic_analyzer.py) -/

/-- Python `lst[-n:]` (as used for `current_chunk[-self.overlap:]`): for
`n = 0` the slice `lst[-0:]` is the whole list; otherwise the last
`min n (length lst)` elements. -/
def pyTakeLast (n : Nat) (xs : List String) : List String :=
  if n = 0 then xs else xs.drop (xs.length - n)

/-- Loop state of `SemanticAnalyzer._chunk_python`: emitted chunks (each a
list of lines), the growing buffer `current_chunk`, and `current_length`. -/
structure ChunkState where
  chunks : List (List String)
  current : List String
  currentLen : Nat
deriving DecidableEq, Repr

/-- One iteration of the `for line in lines` loop of `_chunk_python`
(semantic_analyzer.py lines 26-33): if adding the line would push the
buffer's token count past `chunk_size`, emit the buffer, seed the next
buffer with its last `overlap` lines and recompute the length; then append
the line. -/
def chunkStep (chunk_size overlap : Nat) (st : ChunkState) (line : String) : ChunkState :=
  let line_length := lineTokens line
  if st.currentLen + line_length > chunk_size then
    let trimmed := pyTakeLast overlap st.current
    { chunks := st.chunks ++ [st.current]
      current := trimmed ++ [line]
      currentLen := chunkTokens trimmed + line_length }
  else
    { chunks := st.chunks
      current := st.current ++ [line]
      currentLen := st.currentLen + line_length }

/-- `_chunk_python` at the level of line lists: fold `chunkStep` over the
lines, then emit the final buffer if it is non-empty (lines 34-35). -/
def chunkLines (chunk_size overlap : Nat) (lines : List String) : List (List String) :=
  let st := lines.foldl (chunkStep chunk_size overlap) ⟨[], [], 0⟩
  if st.current ≠ [] then st.chunks ++ [st.current] else st.chunks

/-- `SemanticAnalyzer._chunk_python`: split on newlines, chunk, join each
chunk back with newlines. -/
def chunk_python (chunk_size overlap : Nat) (code : String) : List String :=
  (chunkLines chunk_size overlap (pySplitNewline code)).map joinNewline

/-- Helper for the component regex: if the line starts with the given
pattern, is the next character an ASCII capital letter? -/
def upperAfter (line p : String) : Bool :=
  startsWithChars line.data p.data &&
    (match line.data.drop p.data.length with
     | c :: _ => decide ('A' ≤ c ∧ c ≤ 'Z')
     | [] => false)

/-- `re.match(r'export (default )?(function|const) [A-Z]', line)`: the line
starts with `export `, optionally `default `, then `function` or `const`,
a space, and an ASCII capital letter. -/
def isComponentStart (line : String) : Bool :=
  upperAfter line "export function " || upperAfter line "export const " ||
  upperAfter line "export default function " || upperAfter line "export default const "

/-- Loop state of `_chunk_react_components`: emitted chunks, the buffer,
and the `in_component` flag. -/
structure ReactState where
  chunks : List (List String)
  current : List String
  in_component : Bool
deriving DecidableEq, Repr

/-- One iteration of `_chunk_react_components` (semantic_analyzer.py lines
57-69): a component-start line flushes any buffer and opens a component; a
bare `}` while inside a component closes and emits it; other lines are
kept only while inside a component, otherwise dropped. -/
def reactStep (st : ReactState) (line : String) : ReactState :=
  if isComponentStart line then
    { chunks := if st.current ≠ [] then st.chunks ++ [st.current] else st.chunks
      current := [line]
      in_component := true }
  else if st.in_component && pyStrip line == "\x7d" then
    { chunks := st.chunks ++ [st.current ++ [line]]
      current := []
      in_component := false }
  else if st.in_component then
    { st with current := st.current ++ [line] }
  else
    st

/-- `_chunk_react_components` at the level of line lists. Note the source
has no trailing flush: a buffer still open at end of input is discarded. -/
def reactChunkLines (lines : List String) : List (List String) :=
  (lines.foldl reactStep ⟨[], [], false⟩).chunks

/-- `SemanticAnalyzer._chunk_react_components`. -/
def chunk_react_components (code : String) : List String :=
  (reactChunkLines (pySplitNewline code)).map joinNewline

/-- `SemanticAnalyzer._chunk_code` (semantic_analyzer.py lines 39-49):
dispatch to the component chunker when the file starts like a React
module. The `'def ' in code or 'class ' in code` branch and the default
branch both call `_chunk_python`, so they are collapsed here. -/
def chunk_code (chunk_size overlap : Nat) (code : String) : List String :=
  if pyStartsWith code "import React" || pyStartsWith code "export function" ||
     pyStartsWith code "export const" then
    chunk_react_components code
  else
    chunk_python chunk_size overlap code

/-! ## Embedder (`SemanticAnalyzer._generate_embeddings`) -/

/-- `SemanticAnalyzer._generate_embeddings` (semantic_analyzer.py lines
73-89). The HTTP POST together with status/JSON extraction is abstracted
as `svc : String → Except String Vec`; any raised error is caught and the
chunk is mapped to the empty vector. Results go into a Python dict keyed
by the chunk text. -/
def generate_embeddings (svc : String → Except String Vec) (chunks : List String) :
    List (String × Vec) :=
  chunks.foldl
    (fun embeddings chunk =>
      match svc chunk with
      | .ok v => pyDictSet embeddings chunk v
      | .error _ => pyDictSet embeddings chunk [])
    []

/-! ## Knowledge base setup (`CodebaseRAGAssistant.setup_knowledge_base`) -/

/-- The record given to `collection.add`: main.py keeps four parallel
lists (`embeddings`, `documents`, `metadatas`, `ids`) that are appended to
and reset in lockstep, modelled as one list of records. -/
structure Record where
  embedding : Vec
  document : String
  file_path : String
  id : String
deriving DecidableEq, Repr

/-- The stored identifier `f"{file_path}-{hash(chunk)}"` (main.py line
184). `hash` is Python's builtin string hash, which CPython salts per
process (PYTHONHASHSEED): it is one fixed integer-valued function within
an interpreter process, but a fresh process — such as a second `analyze`
invocation re-indexing the persistent store — generally carries a
*different* function. The model therefore takes the hash function as a
parameter: one indexing run uses one function, and two separate runs may
use two different ones. -/
def makeId (hash : String → Int) (file_path chunk : String) : String :=
  ⟨file_path.data ++ '-' :: (intToString (hash chunk)).data⟩

/-- The record built for one (chunk, embedding) item of one file inside
`setup_knowledge_base` (main.py lines 179-184). -/
def kbRecordOf (hash : String → Int) (file_path : String) (item : String × Vec) : Record :=
  { embedding := item.2
    document := item.1
    file_path := file_path
    id := makeId hash file_path item.1 }

/-- Batch-accumulation state of `setup_knowledge_base`: already flushed
batches (each one `collection.add` call) and the in-memory buffer. -/
structure KBState where
  batches : List (List Record)
  buffer : List Record
deriving DecidableEq, Repr

/-- The fixed batch size (`batch_size = 100`, main.py line 166). -/
def kb_batch_size : Nat := 100

/-- One iteration of the inner `for chunk, embedding in analysis.items()`
loop (main.py lines 179-200): skip empty vectors, append a record, and
flush the buffer once it reaches `batch_size`. -/
def kbStep (hash : String → Int) (file_path : String) (st : KBState)
    (item : String × Vec) : KBState :=
  if item.2 ≠ [] then
    let buf := st.buffer ++ [kbRecordOf hash file_path item]
    if buf.length ≥ kb_batch_size then
      { batches := st.batches ++ [buf], buffer := [] }
    else
      { st with buffer := buf }
  else
    st

/-- `setup_knowledge_base` with semantic results (main.py lines 166-210):
iterate over files and their chunk/embedding dicts, then flush the final
partial buffer if non-empty (lines 202-210). The returned list holds the
argument of each `collection.add` call, in order. -/
def setup_knowledge_base (hash : String → Int)
    (semantic_results : List (String × List (String × Vec))) : List (List Record) :=
  let st := semantic_results.foldl
    (fun st p => p.2.foldl (kbStep hash p.1) st)
    ⟨[], []⟩
  if st.buffer ≠ [] then st.batches ++ [st.buffer] else st.batches

/-- The records that survive the empty-vector filter, in processing order:
for each file, each (chunk, embedding) item with a non-empty vector. -/
def survivors (hash : String → Int)
    (semantic_results : List (String × List (String × Vec))) : List Record :=
  (semantic_results.map (fun p =>
    (p.2.filter (fun item => item.2 ≠ [])).map (kbRecordOf hash p.1))).flatten

/-! ## External vector store -/

/-- Modelled from the spec: the vector store backend itself (Chroma) is an
external collaborator, specified only at its interface boundary (§4.3,
§6): a persistent collection keyed by record identifier where writing a
record whose identifier already exists overwrites the prior entry, and a
new identifier appends a new entry. -/
def storeWrite (store : List (String × Record)) (r : Record) : List (String × Record) :=
  pyDictSet store r.id r

/-- Writing a whole indexing run's batches to the store, in order. -/
def storeRun (store : List (String × Record)) (batches : List (List Record)) :
    List (String × Record) :=
  batches.foldl (fun s b => b.foldl storeWrite s) store

/-! ## Query interface (`CodebaseRAGAssistant.query_interface`) -/

/-- `file_counts` accumulation (main.py lines 266-269):
`file_counts[fp] = file_counts.get(fp, 0) + 1` over the match metadatas. -/
def fileCounts (metadatas : List String) : List (String × Nat) :=
  metadatas.foldl (fun counts fp => pyDictSet counts fp (pyDictGetD counts fp 0 + 1)) []

/-- Lookup `file_counts[fp]` (0 for an absent file, which cannot occur for
keys of the dict itself). -/
def countOf (counts : List (String × Nat)) (fp : String) : Nat :=
  pyDictGetD counts fp 0

/-- The first-seen deduplicated file list computed at main.py lines
271-277 (`seen_files` / `unique_files`) — computed and then immediately
overwritten by the frequency-sorted list. -/
def unique_files_firstSeen (metadatas : List String) : List String :=
  metadatas.foldl (fun acc fp => if fp ∈ acc then acc else acc ++ [fp]) []

/-- The comparison underlying
`sorted(file_counts.keys(), key=lambda x: file_counts[x], reverse=True)`:
a stable descending sort by count, so `a` may stay before `b` exactly when
`count b ≤ count a`. -/
def fileRankLE (counts : List (String × Nat)) (a b : String) : Prop :=
  countOf counts b ≤ countOf counts a

instance fileRankLE.decRel (counts : List (String × Nat)) :
    DecidableRel (fileRankLE counts) :=
  fun _ _ => Nat.decLe _ _

/-- The frequency-sorted distinct file list of main.py lines 280-282,
before truncation: Python's `sorted` is stable, modelled by
`insertionSort` (which keeps an earlier element before a later tie). -/
def rankedFiles (metadatas : List String) : List String :=
  List.insertionSort (fileRankLE (fileCounts metadatas)) (pyDictKeys (fileCounts metadatas))

/-- `unique_files` as finally used (main.py lines 280-282): the sorted
distinct files truncated to the top 5. -/
def unique_files (metadatas : List String) : List String :=
  (rankedFiles metadatas).take 5

/-- Outcome of one iteration of the `while True` query loop. -/
inductive QueryOutcome where
  | exited : QueryOutcome
  | embedFailed (msg : String) : QueryOutcome
  | raised (msg : String) : QueryOutcome
  | answered (files : List String) (context : String) (resp : String) : QueryOutcome
deriving DecidableEq, Repr

/-- One iteration of `query_interface` (main.py lines 233-298). The
embedding POST is `embed : Except String Vec`: its failure is caught by
the `try`/`except` at lines 242-255 and the loop continues
(`embedFailed`). `collection.query` is `storeQuery`, returning
(file_path, document) matches in similarity order; it is **not** inside
any `try`, so its failure propagates out of the loop (`raised`), as does a
failure of the final chat call `chat`. -/
def queryStep (query : String) (embed : Except String Vec)
    (storeQuery : Except String (List (String × String)))
    (chat : List String → String → Except String String) : QueryOutcome :=
  if pyLower query == "exit" then .exited
  else
    match embed with
    | .error e => .embedFailed e
    | .ok _ =>
      match storeQuery with
      | .error e => .raised e
      | .ok results =>
        let metadatas := results.map Prod.fst
        let files := unique_files metadatas
        let context := "Relevant code snippets:\n" ++
          joinNewline (results.map (fun p => "From " ++ p.1 ++ ":\n" ++ p.2))
        match chat files context with
        | .error e => .raised e
        | .ok resp => .answered files context resp

/-! ## Claim statements -/

/-- Coverage: the original lines occur, in order, within the concatenation
of the chunks' lines (`List.Sublist`, so duplicated overlap lines are
allowed but no line may be dropped). -/
def covers (chunksL : List (List String)) (lines : List String) : Prop :=
  lines.Sublist chunksL.flatten

/-- Claim C2 as stated: coverage holds for both the generic strategy and
the component-boundary strategy, on every input. -/
def claimC2 : Prop :=
  ∀ (chunk_size overlap : Nat) (code : String),
    covers (chunkLines chunk_size overlap (pySplitNewline code)) (pySplitNewline code) ∧
    covers (reactChunkLines (pySplitNewline code)) (pySplitNewline code)

/-- Claim C6 as stated, for one configuration and input: every chunk of
the generic chunker has token count at least `chunk_size`, except the
final chunk or a chunk that is a single line exceeding `chunk_size`. -/
def claimC6 (chunk_size overlap : Nat) (code : String) : Prop :=
  ∀ i (h : i < (chunkLines chunk_size overlap (pySplitNewline code)).length),
    i = (chunkLines chunk_size overlap (pySplitNewline code)).length - 1 ∨
    chunk_size ≤ chunkTokens ((chunkLines chunk_size overlap (pySplitNewline code)).get ⟨i, h⟩) ∨
    (((chunkLines chunk_size overlap (pySplitNewline code)).get ⟨i, h⟩).length = 1 ∧
      chunk_size < chunkTokens ((chunkLines chunk_size overlap (pySplitNewline code)).get ⟨i, h⟩))

/-- Two lines of 600 one-letter tokens each: at the configured sizes the
first line fits the buffer, the second triggers a flush, so a non-final
single-line chunk of 600 tokens (< 1024) is emitted. -/
def c6code : String :=
  ⟨(List.replicate 600 ['a', ' ']).flatten ++ '\n' :: (List.replicate 600 ['a', ' ']).flatten⟩

/-- The vector that `_generate_embeddings` ends up storing for a chunk:
the service's vector on success, the empty vector on failure. -/
def embValue (svc : String → Except String Vec) (chunk : String) : Vec :=
  match svc chunk with
  | .ok v => v
  | .error _ => []

/-- Claim C5 as stated: in a non-exiting iteration, an embedding failure
is reported and the loop continues (no exception), and a failure of the
vector-store query call is treated the same way (never propagates). -/
def claimC5 : Prop :=
  ∀ (q : String) (sq : Except String (List (String × String)))
    (chat : List String → String → Except String String) (v : Vec) (e : String),
    pyLower q ≠ "exit" →
    queryStep q (.error e) sq chat = .embedFailed e ∧
    queryStep q (.ok v) (.error e) chat ≠ .raised e

/-! ## Chunker lemmas -/

theorem chunkTokens_append (a b : List String) :
    chunkTokens (a ++ b) = chunkTokens a + chunkTokens b := by
  simp [chunkTokens]

/-- All lines fed to the generic chunker so far sit, in order, inside the
emitted chunks followed by the live buffer. -/
theorem chunkStep_sublist (cs ov : Nat) (st : ChunkState) (line : String) :
    ((st.chunks.flatten ++ st.current) ++ [line]).Sublist
      ((chunkStep cs ov st line).chunks.flatten ++ (chunkStep cs ov st line).current) := by
  unfold chunkStep
  by_cases h : st.currentLen + lineTokens line > cs
  · simp only [h, if_pos, List.flatten_append, List.flatten_cons, List.flatten_nil,
      List.append_nil, List.append_assoc]
    exact (List.Sublist.refl _).append
      ((List.Sublist.refl _).append (List.sublist_append_right _ _))
  · simp [h]

theorem chunkFold_sublist (cs ov : Nat) :
    ∀ (lines : List String) (st : ChunkState),
      ((st.chunks.flatten ++ st.current) ++ lines).Sublist
        (((lines.foldl (chunkStep cs ov) st).chunks.flatten ++
          (lines.foldl (chunkStep cs ov) st).current))
  | [], st => by simp
  | line :: rest, st => by
    have h1 := chunkStep_sublist cs ov st line
    have h2 := chunkFold_sublist cs ov rest (chunkStep cs ov st line)
    refine List.Sublist.trans ?_ h2
    simpa [List.append_assoc] using h1.append_right rest

/-- Coverage of the generic chunker, at the level of line lists. -/
theorem chunkLines_covers (cs ov : Nat) (lines : List String) :
    covers (chunkLines cs ov lines) lines := by
  unfold covers chunkLines
  have h := chunkFold_sublist cs ov lines ⟨[], [], 0⟩
  simp only [List.flatten_nil, List.nil_append] at h
  set st := lines.foldl (chunkStep cs ov) ⟨[], [], 0⟩ with hst
  by_cases hcur : st.current ≠ []
  · simpa [hcur, List.flatten_append] using h
  · simp only [ne_eq, not_not] at hcur
    simpa [hcur] using h

/-- C3 (claim as stated is false): the empty text chunks to one empty
chunk, not to the empty sequence — `''.split('\n')` is `['']`, the single
empty line lands in the buffer and the final non-empty buffer is emitted. -/
theorem C3_counterexample : ¬ (chunk_python config_chunk_size config_overlap "" = []) := by
  decide

/-- C3 (amended): for every configuration, chunking the empty string emits
exactly one chunk, the empty string, under both `_chunk_python` and the
`_chunk_code` dispatcher. -/
theorem C3_empty_input (cs ov : Nat) :
    chunk_python cs ov "" = [""] ∧ chunk_code cs ov "" = [""] := by
  have hsplit : pySplitNewline "" = [""] := rfl
  have hlt : lineTokens "" = 0 := rfl
  have hchunk : chunkLines cs ov [""] = [[""]] := by
    simp [chunkLines, chunkStep, hlt]
  have hpy : chunk_python cs ov "" = [""] := by
    rw [chunk_python, hsplit, hchunk]
    rfl
  refine ⟨hpy, ?_⟩
  rw [chunk_code]
  have h1 : pyStartsWith "" "import React" = false := rfl
  have h2 : pyStartsWith "" "export function" = false := rfl
  have h3 : pyStartsWith "" "export const" = false := rfl
  rw [h1, h2, h3]
  simpa using hpy

/-- C2 (claim as stated is false): the component-boundary strategy drops
lines that lie outside any recognized component; on the single-line input
`import React from x` it emits no chunk at all, so the input line is
never reproduced. -/
theorem C2_counterexample : ¬ claimC2 := by
  intro h
  have h2 := (h config_chunk_size config_overlap "import React from x").2
  have hr : reactChunkLines (pySplitNewline "import React from x") = [] := by decide
  rw [covers, hr] at h2
  simp only [List.flatten_nil] at h2
  have := List.sublist_nil.mp h2
  exact absurd this (by decide)

/-- C2 (amended): coverage holds for the generic line-budget strategy: for
every configuration and input text, the original lines appear, in order,
in the concatenation of the emitted chunks — only the component-boundary
strategy may drop lines. -/
theorem C2_generic_coverage (cs ov : Nat) (code : String) :
    covers (chunkLines cs ov (pySplitNewline code)) (pySplitNewline code) :=
  chunkLines_covers cs ov (pySplitNewline code)

/-- The `current_length` bookkeeping of `_chunk_python` is exact, and every
chunk emitted during the loop was cut because some already-seen input line
would have pushed it past `chunk_size`. -/
theorem chunkFold_maxed (cs ov : Nat) (full : List String) :
    ∀ (lines : List String) (st : ChunkState),
      (∀ l ∈ lines, l ∈ full) →
      st.currentLen = chunkTokens st.current →
      (∀ c ∈ st.chunks, ∃ l ∈ full, cs < chunkTokens c + lineTokens l) →
      (lines.foldl (chunkStep cs ov) st).currentLen =
          chunkTokens (lines.foldl (chunkStep cs ov) st).current ∧
      ∀ c ∈ (lines.foldl (chunkStep cs ov) st).chunks,
          ∃ l ∈ full, cs < chunkTokens c + lineTokens l
  | [], st => fun _ hlen hchunks => ⟨hlen, hchunks⟩
  | line :: rest, st => fun hmem hlen hchunks => by
    rw [List.foldl_cons]
    refine chunkFold_maxed cs ov full rest (chunkStep cs ov st line)
      (fun l hl => hmem l (List.mem_cons_of_mem _ hl)) ?_ ?_
    · unfold chunkStep
      by_cases hc : st.currentLen + lineTokens line > cs
      · rw [if_pos hc]
        simp [chunkTokens]
      · rw [if_neg hc]
        simp [chunkTokens, hlen]
    · unfold chunkStep
      by_cases hc : st.currentLen + lineTokens line > cs
      · rw [if_pos hc]
        intro c hcmem
        rcases List.mem_append.mp hcmem with h | h
        · exact hchunks c h
        · have hce : c = st.current := by simpa using h
          subst hce
          exact ⟨line, hmem line (List.mem_cons_self _ _), by rw [← hlen]; exact hc⟩
      · rw [if_neg hc]
        exact hchunks

set_option maxRecDepth 20000 in
/-- C6 (claim as stated is false): at the configured chunk size 1024 and
overlap 128, the input `c6code` (two 600-token lines) makes the chunker
emit a non-final chunk of 600 tokens — below the threshold, and not a
single line exceeding it. -/
theorem C6_counterexample : ¬ claimC6 config_chunk_size config_overlap c6code := by
  unfold claimC6
  intro h
  have h0 := h 0 (by decide)
  revert h0
  decide

/-- C6 (amended): a non-final chunk of the generic chunker can fall below
the configured chunk size, but never by more than one line: for every
non-final chunk there is an input line whose token count added to the
chunk's exceeds `chunk_size` (the buffer is flushed just before it would
overflow). -/
theorem C6_flush_bound (cs ov : Nat) (code : String) (c : List String)
    (hc : c ∈ (chunkLines cs ov (pySplitNewline code)).dropLast) :
    ∃ l ∈ pySplitNewline code, cs < chunkTokens c + lineTokens l := by
  obtain ⟨hlen, hchunks⟩ := chunkFold_maxed cs ov (pySplitNewline code)
    (pySplitNewline code) ⟨[], [], 0⟩ (fun l hl => hl) rfl (by simp)
  refine hchunks c ?_
  unfold chunkLines at hc
  set st := (pySplitNewline code).foldl (chunkStep cs ov) ⟨[], [], 0⟩ with hst
  by_cases hcur : st.current ≠ []
  · rw [if_pos hcur, List.dropLast_concat] at hc
    exact hc
  · rw [if_neg hcur] at hc
    exact (List.dropLast_sublist _).subset hc

/-- Witness for `C6_flush_bound` at chunk size 2, overlap 1, on the input
`a\nb b\nc`, whose first emitted chunk `a` has a single token. -/
theorem C6_flush_bound_witness :
    ∃ l ∈ pySplitNewline "a\nb b\nc", 2 < chunkTokens ["a"] + lineTokens l :=
  C6_flush_bound 2 1 "a\nb b\nc" ["a"] (by decide)

/-! ## Ranking lemmas (C1) -/

theorem pyDictKeys_set {β : Type} (d : List (String × β)) (k : String) (v : β) :
    pyDictKeys (pyDictSet d k v) =
      if k ∈ pyDictKeys d then pyDictKeys d else pyDictKeys d ++ [k] := by
  induction d with
  | nil => simp [pyDictSet, pyDictKeys]
  | cons hd tl ih =>
    obtain ⟨k0, v0⟩ := hd
    by_cases hk : k0 = k
    · subst hk
      simp [pyDictSet, pyDictKeys]
    · simp only [pyDictSet, if_neg hk, pyDictKeys, List.map_cons] at ih ⊢
      rw [ih]
      have hk' : k ≠ k0 := Ne.symm hk
      have : (k ∈ k0 :: List.map Prod.fst tl) ↔ (k ∈ List.map Prod.fst tl) := by
        simp [List.mem_cons, hk']
      by_cases hm : k ∈ List.map Prod.fst tl
      · simp [hm, this]
      · simp only [pyDictKeys] at hm
        simp [hm, this, List.cons_append]

theorem pyDictGetD_set_same {β : Type} (d : List (String × β)) (k : String) (v dflt : β) :
    pyDictGetD (pyDictSet d k v) k dflt = v := by
  induction d with
  | nil => simp [pyDictSet, pyDictGetD]
  | cons hd tl ih =>
    obtain ⟨k0, v0⟩ := hd
    by_cases hk : k0 = k
    · subst hk; simp [pyDictSet, pyDictGetD]
    · simp [pyDictSet, hk, pyDictGetD, ih]

theorem pyDictGetD_set_other {β : Type} (d : List (String × β)) (k k' : String) (v dflt : β)
    (h : k' ≠ k) : pyDictGetD (pyDictSet d k v) k' dflt = pyDictGetD d k' dflt := by
  induction d with
  | nil => simp [pyDictSet, pyDictGetD, Ne.symm h]
  | cons hd tl ih =>
    obtain ⟨k0, v0⟩ := hd
    by_cases hk : k0 = k
    · subst hk
      simp [pyDictSet, pyDictGetD, Ne.symm h]
    · simp [pyDictSet, hk, pyDictGetD, ih]

/-- `file_counts` counts occurrences: after folding, the stored count of
`f` is its old count plus the number of occurrences of `f` in the list. -/
theorem fileCounts_count (f : String) :
    ∀ (ms : List String) (acc : List (String × Nat)),
      pyDictGetD (ms.foldl (fun counts fp => pyDictSet counts fp (pyDictGetD counts fp 0 + 1)) acc) f 0 =
        pyDictGetD acc f 0 + ms.count f
  | [], acc => by simp
  | fp :: ms, acc => by
    rw [List.foldl_cons, fileCounts_count f ms]
    by_cases hf : fp = f
    · subst hf
      rw [pyDictGetD_set_same]
      simp [List.count_cons]
      omega
    · rw [pyDictGetD_set_other _ _ _ _ _ (Ne.symm hf)]
      simp [List.count_cons, hf]

/-- The keys of `file_counts`, in insertion order, are exactly the
first-seen deduplicated file list that main.py computes and discards. -/
theorem fileCounts_keys :
    ∀ (ms : List String) (acc : List (String × Nat)),
      pyDictKeys (ms.foldl (fun counts fp => pyDictSet counts fp (pyDictGetD counts fp 0 + 1)) acc) =
        ms.foldl (fun a fp => if fp ∈ a then a else a ++ [fp]) (pyDictKeys acc)
  | [], acc => by simp
  | fp :: ms, acc => by
    rw [List.foldl_cons, fileCounts_keys ms, List.foldl_cons, pyDictKeys_set]

theorem countOf_fileCounts (ms : List String) (f : String) :
    countOf (fileCounts ms) f = ms.count f := by
  rw [countOf, fileCounts, fileCounts_count]
  simp [pyDictGetD]

theorem keys_fileCounts (ms : List String) :
    pyDictKeys (fileCounts ms) = unique_files_firstSeen ms := by
  rw [fileCounts, unique_files_firstSeen, fileCounts_keys]
  rfl

/-- C1: the derived file ranking (i) is a permutation of the distinct
source files (in first-seen order before sorting), (ii) is sorted by raw
occurrence count in descending order, (iii) keeps ties in the order the
files first appear among the similarity-ordered matches (stability), and
(iv) is truncated to at most 5 entries; in particular on the spec's
example matches (metadata file sequence `fileA, fileB, fileA, fileC`) the
ranking is `[fileA, fileB, fileC]`. -/
theorem C1_file_ranking (metadatas : List String) :
    (rankedFiles metadatas).Perm (unique_files_firstSeen metadatas) ∧
    (rankedFiles metadatas).Pairwise
      (fun a b => metadatas.count b ≤ metadatas.count a) ∧
    (∀ a b : String, metadatas.count a = metadatas.count b →
      [a, b].Sublist (unique_files_firstSeen metadatas) →
      [a, b].Sublist (rankedFiles metadatas)) ∧
    unique_files metadatas = (rankedFiles metadatas).take 5 ∧
    unique_files ["fileA", "fileB", "fileA", "fileC"] = ["fileA", "fileB", "fileC"] := by
  letI : IsTotal String (fileRankLE (fileCounts metadatas)) :=
    ⟨fun _ _ => Nat.le_total _ _⟩
  letI : IsTrans String (fileRankLE (fileCounts metadatas)) :=
    ⟨fun _ _ _ hab hbc => le_trans hbc hab⟩
  refine ⟨?_, ?_, ?_, rfl, by decide⟩
  · have h1 := List.perm_insertionSort (fileRankLE (fileCounts metadatas))
      (pyDictKeys (fileCounts metadatas))
    rw [rankedFiles]
    exact keys_fileCounts metadatas ▸ h1
  · have h2 := List.sorted_insertionSort (fileRankLE (fileCounts metadatas))
      (pyDictKeys (fileCounts metadatas))
    rw [rankedFiles]
    refine List.Pairwise.imp ?_ h2
    intro a b hab
    rw [fileRankLE, countOf_fileCounts, countOf_fileCounts] at hab
    exact hab
  · intro a b hcnt hfs
    rw [rankedFiles]
    refine List.pair_sublist_insertionSort ?_ ?_
    · rw [fileRankLE, countOf_fileCounts, countOf_fileCounts]
      exact le_of_eq hcnt.symm
    · rw [keys_fileCounts]
      exact hfs

/-- Witness for `C1_file_ranking`: on the example matches, `fileB` and
`fileC` tie with count 1 and keep their first-seen relative order in the
ranking. -/
theorem C1_file_ranking_witness :
    ["fileB", "fileC"].Sublist (rankedFiles ["fileA", "fileB", "fileA", "fileC"]) :=
  (C1_file_ranking ["fileA", "fileB", "fileA", "fileC"]).2.2.1 "fileB" "fileC"
    (by decide) (by decide)

/-! ## Knowledge-base batching lemmas (C8, C9) -/

theorem kbStep_flatten (hash : String → Int) (fp : String) (st : KBState) (item : String × Vec) :
    (kbStep hash fp st item).batches.flatten ++ (kbStep hash fp st item).buffer =
      st.batches.flatten ++ st.buffer ++
        (if item.2 ≠ [] then [kbRecordOf hash fp item] else []) := by
  simp only [kbStep]
  by_cases h2 : item.2 ≠ []
  · rw [if_pos h2, if_pos h2]
    by_cases h3 : (st.buffer ++ [kbRecordOf hash fp item]).length ≥ kb_batch_size
    · rw [if_pos h3]
      simp [List.flatten_append]
    · rw [if_neg h3]
      simp
  · rw [if_neg h2, if_neg h2]
    simp

theorem kbStep_inv (hash : String → Int) (fp : String) (st : KBState) (item : String × Vec)
    (hbuf : st.buffer.length < kb_batch_size)
    (hbat : ∀ b ∈ st.batches, b.length = kb_batch_size) :
    (kbStep hash fp st item).buffer.length < kb_batch_size ∧
    ∀ b ∈ (kbStep hash fp st item).batches, b.length = kb_batch_size := by
  simp only [kbStep]
  by_cases h2 : item.2 ≠ []
  · rw [if_pos h2]
    by_cases h3 : (st.buffer ++ [kbRecordOf hash fp item]).length ≥ kb_batch_size
    · rw [if_pos h3]
      refine ⟨by simp [kb_batch_size], ?_⟩
      intro b hb
      rcases List.mem_append.mp hb with h | h
      · exact hbat b h
      · have hbe : b = st.buffer ++ [kbRecordOf hash fp item] := by simpa using h
        subst hbe
        simp only [List.length_append, List.length_cons, List.length_nil] at h3 ⊢
        omega
    · rw [if_neg h3]
      refine ⟨?_, hbat⟩
      simp only [List.length_append, List.length_cons, List.length_nil] at h3 ⊢
      omega
  · rw [if_neg h2]
    exact ⟨hbuf, hbat⟩

theorem kbFold_items (hash : String → Int) (fp : String) :
    ∀ (items : List (String × Vec)) (st : KBState),
      st.buffer.length < kb_batch_size →
      (∀ b ∈ st.batches, b.length = kb_batch_size) →
      (items.foldl (kbStep hash fp) st).buffer.length < kb_batch_size ∧
      (∀ b ∈ (items.foldl (kbStep hash fp) st).batches, b.length = kb_batch_size) ∧
      (items.foldl (kbStep hash fp) st).batches.flatten ++
          (items.foldl (kbStep hash fp) st).buffer =
        st.batches.flatten ++ st.buffer ++
          (items.filter (fun item => item.2 ≠ [])).map (kbRecordOf hash fp)
  | [], st => fun hbuf hbat => ⟨hbuf, hbat, by simp⟩
  | item :: items, st => fun hbuf hbat => by
    rw [List.foldl_cons]
    obtain ⟨h1, h2⟩ := kbStep_inv hash fp st item hbuf hbat
    obtain ⟨g1, g2, g3⟩ := kbFold_items hash fp items (kbStep hash fp st item) h1 h2
    refine ⟨g1, g2, ?_⟩
    rw [g3, kbStep_flatten]
    by_cases hv : item.2 ≠ []
    · simp [hv, List.filter_cons]
    · simp [hv, List.filter_cons]

theorem kbFold_results (hash : String → Int) :
    ∀ (results : List (String × List (String × Vec))) (st : KBState),
      st.buffer.length < kb_batch_size →
      (∀ b ∈ st.batches, b.length = kb_batch_size) →
      (results.foldl (fun st p => p.2.foldl (kbStep hash p.1) st) st).buffer.length < kb_batch_size ∧
      (∀ b ∈ (results.foldl (fun st p => p.2.foldl (kbStep hash p.1) st) st).batches,
          b.length = kb_batch_size) ∧
      (results.foldl (fun st p => p.2.foldl (kbStep hash p.1) st) st).batches.flatten ++
          (results.foldl (fun st p => p.2.foldl (kbStep hash p.1) st) st).buffer =
        st.batches.flatten ++ st.buffer ++
          (results.map (fun p =>
            (p.2.filter (fun item => item.2 ≠ [])).map (kbRecordOf hash p.1))).flatten
  | [], st => fun hbuf hbat => ⟨hbuf, hbat, by simp⟩
  | p :: results, st => fun hbuf hbat => by
    rw [List.foldl_cons]
    obtain ⟨h1, h2, h3⟩ := kbFold_items hash p.1 p.2 st hbuf hbat
    obtain ⟨g1, g2, g3⟩ := kbFold_results hash results (p.2.foldl (kbStep hash p.1) st) h1 h2
    refine ⟨g1, g2, ?_⟩
    rw [g3, h3]
    simp [List.append_assoc]

/-- Everything `setup_knowledge_base` hands to `collection.add`, across
all batches in order, is exactly the list of surviving records. -/
theorem setup_kb_flatten (hash : String → Int)
    (results : List (String × List (String × Vec))) :
    (setup_knowledge_base hash results).flatten = survivors hash results := by
  unfold setup_knowledge_base survivors
  obtain ⟨hbuf, hbat, hflat⟩ := kbFold_results hash results ⟨[], []⟩
    (by simp [kb_batch_size]) (by simp)
  simp only [List.flatten_nil, List.nil_append] at hflat
  set st := results.foldl (fun st p => p.2.foldl (kbStep hash p.1) st) (⟨[], []⟩ : KBState)
  by_cases hcur : st.buffer ≠ []
  · rw [if_pos hcur, List.flatten_append]
    simpa using hflat
  · simp only [ne_eq, not_not] at hcur
    rw [if_neg (by simp [hcur])]
    rw [hcur, List.append_nil] at hflat
    exact hflat

/-- C8: no record with an empty vector is ever passed to the store's
`add` call — every record in every flushed batch has a non-empty vector
(main.py line 180 filters on `embedding and len(embedding) > 0`). -/
theorem C8_no_empty_vector (hash : String → Int)
    (results : List (String × List (String × Vec))) :
    ∀ b ∈ setup_knowledge_base hash results, ∀ r ∈ b, r.embedding ≠ [] := by
  intro b hb r hr
  have hmem : r ∈ (setup_knowledge_base hash results).flatten :=
    List.mem_flatten.mpr ⟨b, hb, hr⟩
  rw [setup_kb_flatten] at hmem
  unfold survivors at hmem
  rcases List.mem_flatten.mp hmem with ⟨l, hl, hrl⟩
  rcases List.mem_map.mp hl with ⟨p, hp, hpl⟩
  subst hpl
  rcases List.mem_map.mp hrl with ⟨item, hitem, hri⟩
  subst hri
  have hne := List.of_mem_filter hitem
  simp only [kbRecordOf]
  simpa using hne

/-- Witness for `C8_no_empty_vector` on a two-chunk file where one
embedding failed: the surviving stored record has a non-empty vector. -/
theorem C8_no_empty_vector_witness :
    ({ embedding := [1], document := "chunk", file_path := "f.py", id := "f.py-0" } :
      Record).embedding ≠ [] :=
  C8_no_empty_vector (fun _ => 0) [("f.py", [("chunk", [1]), ("bad", [])])]
    [{ embedding := [1], document := "chunk", file_path := "f.py", id := "f.py-0" }]
    (by decide)
    { embedding := [1], document := "chunk", file_path := "f.py", id := "f.py-0" }
    (by decide)

/-- C9: every batch flushed before the end of the run has exactly the
fixed batch size 100, no flushed batch is empty (the final partial batch
is flushed only when non-empty), and the concatenation of all flushed
batches is exactly the list of surviving records — every surviving record
is stored. -/
theorem C9_batched_upsert (hash : String → Int)
    (results : List (String × List (String × Vec))) :
    (∀ b ∈ (setup_knowledge_base hash results).dropLast, b.length = kb_batch_size) ∧
    (∀ b ∈ setup_knowledge_base hash results, b ≠ []) ∧
    (setup_knowledge_base hash results).flatten = survivors hash results := by
  obtain ⟨hbuf, hbat, hflat⟩ := kbFold_results hash results ⟨[], []⟩
    (by simp [kb_batch_size]) (by simp)
  refine ⟨?_, ?_, setup_kb_flatten hash results⟩
  · intro b hb
    unfold setup_knowledge_base at hb
    set st := results.foldl (fun st p => p.2.foldl (kbStep hash p.1) st) (⟨[], []⟩ : KBState)
    by_cases hcur : st.buffer ≠ []
    · rw [if_pos hcur, List.dropLast_concat] at hb
      exact hbat b hb
    · rw [if_neg hcur] at hb
      exact hbat b ((List.dropLast_sublist _).subset hb)
  · intro b hb
    unfold setup_knowledge_base at hb
    set st := results.foldl (fun st p => p.2.foldl (kbStep hash p.1) st) (⟨[], []⟩ : KBState)
    by_cases hcur : st.buffer ≠ []
    · rw [if_pos hcur] at hb
      rcases List.mem_append.mp hb with h | h
      · intro hbe
        have := hbat b h
        rw [hbe] at this
        simp [kb_batch_size] at this
      · have hbe : b = st.buffer := by simpa using h
        rw [hbe]
        exact hcur
    · rw [if_neg hcur] at hb
      intro hbe
      have := hbat b hb
      rw [hbe] at this
      simp [kb_batch_size] at this

/-- Witness for `C9_batched_upsert`: on a one-file, one-chunk input the
single (final, partial) flushed batch is non-empty. -/
theorem C9_batched_upsert_witness :
    ([{ embedding := [1], document := "chunk", file_path := "f.py", id := "f.py-0" }] :
      List Record) ≠ [] :=
  (C9_batched_upsert (fun _ => 0) [("f.py", [("chunk", [1])])]).2.1 _ (by decide)

/-! ## Store idempotence lemmas (C4) -/

theorem mem_keys_pyDictSet_self {β : Type} (d : List (String × β)) (k : String) (v : β) :
    k ∈ pyDictKeys (pyDictSet d k v) := by
  rw [pyDictKeys_set]
  by_cases h : k ∈ pyDictKeys d
  · rwa [if_pos h]
  · rw [if_neg h]
    simp

theorem mem_keys_pyDictSet_mono {β : Type} (d : List (String × β)) (k k' : String) (v : β)
    (h : k' ∈ pyDictKeys d) : k' ∈ pyDictKeys (pyDictSet d k v) := by
  rw [pyDictKeys_set]
  by_cases hm : k ∈ pyDictKeys d
  · rwa [if_pos hm]
  · rw [if_neg hm]
    exact List.mem_append_left _ h

theorem storeFold_mem_mono : ∀ (b : List Record) (s : List (String × Record)) (k : String),
    k ∈ pyDictKeys s → k ∈ pyDictKeys (b.foldl storeWrite s)
  | [], _, _ => fun h => h
  | r :: b, s, k => fun h =>
    storeFold_mem_mono b (storeWrite s r) k (mem_keys_pyDictSet_mono s r.id k r h)

theorem storeFold_mem_written : ∀ (b : List Record) (s : List (String × Record)) (r : Record),
    r ∈ b → r.id ∈ pyDictKeys (b.foldl storeWrite s)
  | [], _, r => fun h => absurd h (List.not_mem_nil r)
  | r0 :: b, s, r => fun h => by
    rcases List.mem_cons.mp h with he | hm
    · subst he
      exact storeFold_mem_mono b (storeWrite s r) r.id (mem_keys_pyDictSet_self s r.id r)
    · exact storeFold_mem_written b (storeWrite s r0) r hm

theorem storeRun_mem_mono : ∀ (batches : List (List Record)) (s : List (String × Record))
    (k : String), k ∈ pyDictKeys s → k ∈ pyDictKeys (storeRun s batches)
  | [], _, _ => fun h => h
  | b :: batches, s, k => fun h =>
    storeRun_mem_mono batches (b.foldl storeWrite s) k (storeFold_mem_mono b s k h)

theorem storeRun_mem_written : ∀ (batches : List (List Record)) (s : List (String × Record))
    (r : Record), r ∈ batches.flatten → r.id ∈ pyDictKeys (storeRun s batches)
  | [], _, r => fun h => by simp at h
  | b :: batches, s, r => fun h => by
    rw [List.flatten_cons, List.mem_append] at h
    rcases h with h | h
    · exact storeRun_mem_mono batches (b.foldl storeWrite s) r.id
        (storeFold_mem_written b s r h)
    · exact storeRun_mem_written batches (b.foldl storeWrite s) r h

theorem storeFold_stable : ∀ (b : List Record) (s : List (String × Record)),
    (∀ r ∈ b, r.id ∈ pyDictKeys s) →
    pyDictKeys (b.foldl storeWrite s) = pyDictKeys s ∧
    (b.foldl storeWrite s).length = s.length
  | [], _ => fun _ => ⟨rfl, rfl⟩
  | r :: b, s => fun h => by
    have hr := h r (List.mem_cons_self r b)
    have hkeys : pyDictKeys (storeWrite s r) = pyDictKeys s := by
      rw [storeWrite, pyDictKeys_set, if_pos hr]
    have hlen : (storeWrite s r).length = s.length := by
      have hkl := congrArg List.length hkeys
      simpa [pyDictKeys] using hkl
    obtain ⟨h1, h2⟩ := storeFold_stable b (storeWrite s r)
      (fun r' hm => hkeys ▸ h r' (List.mem_cons_of_mem r hm))
    exact ⟨h1.trans hkeys, h2.trans hlen⟩

theorem storeRun_stable : ∀ (batches : List (List Record)) (s : List (String × Record)),
    (∀ r ∈ batches.flatten, r.id ∈ pyDictKeys s) →
    pyDictKeys (storeRun s batches) = pyDictKeys s ∧ (storeRun s batches).length = s.length
  | [], _ => fun _ => ⟨rfl, rfl⟩
  | b :: batches, s => fun h => by
    obtain ⟨h1, h2⟩ := storeFold_stable b s
      (fun r hm => h r (by rw [List.flatten_cons, List.mem_append]; exact Or.inl hm))
    obtain ⟨g1, g2⟩ := storeRun_stable batches (b.foldl storeWrite s)
      (fun r hm => h1 ▸ h r (by rw [List.flatten_cons, List.mem_append]; exact Or.inr hm))
    exact ⟨g1.trans h1, g2.trans h2⟩

/-- Auxiliary, *single-process* stability: as long as both runs use the
same hash function (the situation inside one interpreter process), every
stored identifier is `makeId` of its path and chunk, and replaying the
run leaves the store's key set and record count unchanged. This does NOT
establish claim C4, because a real re-indexing run is a new CPython
process with a differently salted string hash — see
`C4_hash_salting_duplicates`. -/
theorem ids_stable_fixed_hash (hash : String → Int)
    (results : List (String × List (String × Vec))) :
    (∀ b ∈ setup_knowledge_base hash results, ∀ r ∈ b,
        r.id = makeId hash r.file_path r.document) ∧
    pyDictKeys (storeRun (storeRun [] (setup_knowledge_base hash results))
        (setup_knowledge_base hash results)) =
      pyDictKeys (storeRun [] (setup_knowledge_base hash results)) ∧
    (storeRun (storeRun [] (setup_knowledge_base hash results))
        (setup_knowledge_base hash results)).length =
      (storeRun [] (setup_knowledge_base hash results)).length := by
  have hpresent : ∀ r ∈ (setup_knowledge_base hash results).flatten,
      r.id ∈ pyDictKeys (storeRun [] (setup_knowledge_base hash results)) :=
    fun r hm => storeRun_mem_written (setup_knowledge_base hash results) [] r hm
  obtain ⟨hkeys, hlen⟩ := storeRun_stable (setup_knowledge_base hash results)
    (storeRun [] (setup_knowledge_base hash results)) hpresent
  refine ⟨?_, hkeys, hlen⟩
  intro b hb r hr
  have hmem : r ∈ (setup_knowledge_base hash results).flatten :=
    List.mem_flatten.mpr ⟨b, hb, hr⟩
  rw [setup_kb_flatten] at hmem
  unfold survivors at hmem
  rcases List.mem_flatten.mp hmem with ⟨l, hl, hrl⟩
  rcases List.mem_map.mp hl with ⟨p, hp, hpl⟩
  subst hpl
  rcases List.mem_map.mp hrl with ⟨item, hitem, hri⟩
  subst hri
  rfl

/-- Concrete instance of `ids_stable_fixed_hash`: the identifier stored
for the chunk `chunk` of `f.py` is exactly `makeId` of that path and
chunk. -/
theorem ids_stable_fixed_hash_example :
    ("f.py-0" : String) = makeId (fun _ => 0) "f.py" "chunk" :=
  (ids_stable_fixed_hash (fun _ => 0) [("f.py", [("chunk", [1])])]).1
    [{ embedding := [1], document := "chunk", file_path := "f.py", id := "f.py-0" }]
    (by decide)
    { embedding := [1], document := "chunk", file_path := "f.py", id := "f.py-0" }
    (by decide)

/-- C4 (the claim is right, the code is wrong): the spec requires the
stored identifier to be a deterministic function of (file path, chunk
text) so that a second indexing run overwrites instead of duplicating.
The code derives the identifier from CPython's per-process *salted*
string hash, and a re-indexing run is a fresh `analyze` process, so the
two runs carry different hash functions. Evaluated at the failing input —
the one-chunk file `f.py` indexed by a first process whose salted hash of
`chunk` is 0 and re-indexed by a second process whose salted hash of
`chunk` is 1 — the identifiers differ, and the persistent store grows
from 1 to 2 records: the second run duplicates instead of overwriting. -/
theorem C4_hash_salting_duplicates :
    makeId (fun _ => 0) "f.py" "chunk" ≠ makeId (fun _ => 1) "f.py" "chunk" ∧
    (storeRun [] (setup_knowledge_base (fun _ => 0) [("f.py", [("chunk", [1])])])).length = 1 ∧
    (storeRun (storeRun [] (setup_knowledge_base (fun _ => 0) [("f.py", [("chunk", [1])])]))
        (setup_knowledge_base (fun _ => 1) [("f.py", [("chunk", [1])])])).length = 2 :=
  ⟨by decide, by decide, by decide⟩

/-! ## Embedder failure-isolation lemmas (C7) -/

theorem pyDictSet_fresh {β : Type} :
    ∀ (d : List (String × β)) (k : String) (v : β), k ∉ pyDictKeys d →
      pyDictSet d k v = d ++ [(k, v)]
  | [], _, _ => fun _ => rfl
  | (k0, v0) :: rest, k, v => fun h => by
    have hne : k0 ≠ k := by
      intro he
      exact h (by simp [pyDictKeys, he])
    rw [pyDictSet, if_neg hne, pyDictSet_fresh rest k v (fun hm => h (by simp [pyDictKeys] at hm ⊢; exact Or.inr hm))]
    simp

/-- With pairwise-distinct chunks every dict insertion is fresh, so the
embeddings dict is just the chunk list paired with each chunk's value. -/
theorem generate_embeddings_map (svc : String → Except String Vec) :
    ∀ (chunks : List String) (acc : List (String × Vec)),
      chunks.Nodup → (∀ c ∈ chunks, c ∉ pyDictKeys acc) →
      chunks.foldl (fun embeddings chunk =>
        match svc chunk with
        | .ok v => pyDictSet embeddings chunk v
        | .error _ => pyDictSet embeddings chunk []) acc =
      acc ++ chunks.map (fun c => (c, embValue svc c))
  | [], acc => fun _ _ => by simp
  | chunk :: chunks, acc => fun hnd hfresh => by
    rw [List.foldl_cons]
    have hfr : chunk ∉ pyDictKeys acc := hfresh chunk (List.mem_cons_self chunk chunks)
    have hstep : (match svc chunk with
        | .ok v => pyDictSet acc chunk v
        | .error _ => pyDictSet acc chunk []) = acc ++ [(chunk, embValue svc chunk)] := by
      unfold embValue
      cases svc chunk <;> exact pyDictSet_fresh acc chunk _ hfr
    rw [hstep, generate_embeddings_map svc chunks (acc ++ [(chunk, embValue svc chunk)])
      (List.nodup_cons.mp hnd).2 ?_]
    · simp
    · intro c hc
      have hkeys : pyDictKeys (acc ++ [(chunk, embValue svc chunk)]) =
          pyDictKeys acc ++ [chunk] := by simp [pyDictKeys]
      rw [hkeys]
      intro hm
      rcases List.mem_append.mp hm with hm | hm
      · exact hfresh c (List.mem_cons_of_mem chunk hc) hm
      · have hce : c = chunk := by simpa using hm
        exact (List.nodup_cons.mp hnd).1 (hce ▸ hc)

theorem pyDictGetD_map_self (f : String → Vec) :
    ∀ (chunks : List String) (c : String), c ∈ chunks →
      pyDictGetD (chunks.map (fun x => (x, f x))) c [] = f c
  | [], c => fun h => absurd h (List.not_mem_nil c)
  | c0 :: chunks, c => fun h => by
    rw [List.map_cons, pyDictGetD]
    by_cases he : c0 = c
    · rw [if_pos he, he]
    · rw [if_neg he]
      exact pyDictGetD_map_self f chunks c
        ((List.mem_cons.mp h).resolve_left (fun hh => he hh.symm))

theorem filter_snd_map_length (f : String → Vec) :
    ∀ l : List String,
      ((l.map (fun c => (c, f c))).filter (fun item => item.2 ≠ [])).length =
        (l.filter (fun c => f c ≠ [])).length
  | [] => rfl
  | c :: l => by
    simp only [List.map_cons, List.filter_cons]
    by_cases h : f c = []
    · simp only [h]
      simpa using filter_snd_map_length f l
    · simp only [ne_eq, h, not_false_eq_true, decide_not, List.length_cons]
      simpa using filter_snd_map_length f l

theorem filter_length_one_fail (p : String → Bool) :
    ∀ (chunks : List String) (c0 : String), chunks.Nodup → c0 ∈ chunks → p c0 = false →
      (∀ c ∈ chunks, c ≠ c0 → p c = true) →
      (chunks.filter p).length = chunks.length - 1
  | [], c0 => fun _ h => absurd h (List.not_mem_nil c0)
  | c :: chunks, c0 => fun hnd hc0 hp0 hp => by
    rcases List.mem_cons.mp hc0 with he | hm
    · subst he
      have hall : ∀ x ∈ chunks, p x = true := fun x hx =>
        hp x (List.mem_cons_of_mem c0 hx)
          (fun hxc => (List.nodup_cons.mp hnd).1 (hxc ▸ hx))
      rw [List.filter_cons]
      simp [hp0, List.filter_eq_self.mpr hall]
    · have hne : c ≠ c0 := fun he => (List.nodup_cons.mp hnd).1 (he ▸ hm)
      have hpc := hp c (List.mem_cons_self c chunks) hne
      have hrec := filter_length_one_fail p chunks c0 (List.nodup_cons.mp hnd).2 hm hp0
        (fun x hx hxne => hp x (List.mem_cons_of_mem c hx) hxne)
      have hpos : 0 < chunks.length := List.length_pos_of_mem hm
      rw [List.filter_cons]
      simp only [hpc, if_true, List.length_cons, hrec]
      omega

/-- C7: if the embedding service fails for exactly one chunk among N
pairwise-distinct chunks (and succeeds with a non-empty vector on all
others), the embedder maps the failed chunk to the empty vector, still
produces an entry for every chunk, and the store receives exactly N−1
records without any exception. -/
theorem C7_failure_isolation (hash : String → Int) (fp : String)
    (svc : String → Except String Vec) (chunks : List String) (c0 err : String)
    (hnodup : chunks.Nodup) (hc0 : c0 ∈ chunks)
    (hfail : svc c0 = .error err)
    (hok : ∀ c ∈ chunks, c ≠ c0 → ∃ v, svc c = .ok v ∧ v ≠ []) :
    pyDictGetD (generate_embeddings svc chunks) c0 [] = [] ∧
    pyDictKeys (generate_embeddings svc chunks) = chunks ∧
    (setup_knowledge_base hash [(fp, generate_embeddings svc chunks)]).flatten.length =
      chunks.length - 1 := by
  have hmap : generate_embeddings svc chunks = chunks.map (fun c => (c, embValue svc c)) := by
    unfold generate_embeddings
    rw [generate_embeddings_map svc chunks [] hnodup (by simp [pyDictKeys])]
    simp
  have hv0 : embValue svc c0 = [] := by
    unfold embValue
    rw [hfail]
  refine ⟨?_, ?_, ?_⟩
  · rw [hmap, pyDictGetD_map_self _ chunks c0 hc0, hv0]
  · rw [hmap]
    unfold pyDictKeys
    rw [List.map_map]
    exact List.map_id chunks
  · rw [setup_kb_flatten]
    unfold survivors
    simp only [List.map_cons, List.map_nil, List.flatten_cons, List.flatten_nil,
      List.append_nil, List.length_map]
    rw [hmap, filter_snd_map_length]
    refine filter_length_one_fail _ chunks c0 hnodup hc0 ?_ ?_
    · simp [hv0]
    · intro c hc hne
      rcases hok c hc hne with ⟨v, hsvc, hv⟩
      have : embValue svc c = v := by
        unfold embValue
        rw [hsvc]
      simp [this, hv]

/-- Witness for `C7_failure_isolation`: three chunks, the middle one's
embedding call fails; two records reach the store. -/
theorem C7_failure_isolation_witness :
    (setup_knowledge_base (fun _ => 0)
      [("f.py", generate_embeddings
          (fun c => if c = "b" then .error "boom" else .ok [1]) ["a", "b", "c"])]).flatten.length =
      (["a", "b", "c"] : List String).length - 1 :=
  (C7_failure_isolation (fun _ => 0) "f.py"
    (fun c => if c = "b" then .error "boom" else .ok [1]) ["a", "b", "c"] "b" "boom"
    (by decide) (by decide) rfl
    (by
      intro c hc hne
      rcases List.mem_cons.mp hc with he | hc2
      · subst he
        exact ⟨[1], rfl, by decide⟩
      rcases List.mem_cons.mp hc2 with he | hc3
      · subst he
        exact absurd rfl hne
      rcases List.mem_cons.mp hc3 with he | hc4
      · subst he
        exact ⟨[1], rfl, by decide⟩
      · exact absurd hc4 (List.not_mem_nil c))).2.2

/-- C5 (claim as stated is false): the `collection.query` call sits
outside the `try`/`except` of the query loop, so its failure is not
reported-and-continued — it propagates out of the loop. Concretely, with
a healthy embedding and a failing store query the iteration raises. -/
theorem C5_counterexample : ¬ claimC5 := by
  intro h
  have h2 := (h "what" (.ok []) (fun _ _ => .ok "") [1] "down" (by decide)).2
  exact h2 rfl

/-- C5 (amended): a failure embedding the question is caught, reported
and the loop continues; but a failure of the vector-store query is *not*
caught — the exception escapes the loop. -/
theorem C5_per_question_errors (q : String) (sq : Except String (List (String × String)))
    (chat : List String → String → Except String String) (v : Vec) (e : String)
    (hq : pyLower q ≠ "exit") :
    queryStep q (.error e) sq chat = .embedFailed e ∧
    queryStep q (.ok v) (.error e) chat = .raised e := by
  have hcond : ¬((pyLower q == "exit") = true) := by simp [hq]
  constructor
  · rw [queryStep, if_neg hcond]
  · rw [queryStep, if_neg hcond]

/-- Witness for `C5_per_question_errors` on the question `what`. -/
theorem C5_per_question_errors_witness :
    queryStep "what" (.error "boom") (.ok []) (fun _ _ => .ok "") = .embedFailed "boom" ∧
    queryStep "what" (.ok [1]) (.error "boom") (fun _ _ => .ok "") = .raised "boom" :=
  C5_per_question_errors "what" (.ok []) (fun _ _ => .ok "") [1] "boom" (by decide)

/-- C10: one iteration of the query loop terminates the loop exactly when
the lowercased input equals `exit`, whatever the embedding, store and
chat services do. -/
theorem C10_exit_sentinel (q : String) (embed : Except String Vec)
    (sq : Except String (List (String × String)))
    (chat : List String → String → Except String String) :
    queryStep q embed sq chat = .exited ↔ pyLower q = "exit" := by
  unfold queryStep
  by_cases hq : pyLower q = "exit"
  · simp [hq]
  · rw [if_neg (by simp [hq])]
    constructor
    · intro h
      exfalso
      split at h
      · exact QueryOutcome.noConfusion h
      · split at h
        · exact QueryOutcome.noConfusion h
        · dsimp only at h
          split at h <;> exact QueryOutcome.noConfusion h
    · intro h
      exact absurd h hq
